import Mathlib

/-!
# Verification of the CPrime repository's sieve code

Shallow embedding of the Python sources:

* `src/Learn1.py`, `prime_numbers` (lines 8-22): a classic Sieve of
  Eratosthenes over a flag buffer of length `num`, returning the list of
  entries of `range(2, num, 1)` still flagged `True`.
* `src/test_CPrime.py`, `prime_numbers_reference` (lines 11-43): an odd-only
  sieve that asserts `num >= 2`, marks multiples of odd `x` starting at `x*x`,
  and returns `[2]` extended with the surviving odd entries of
  `range(3, num, 2)`.
* `CDividends.pyx` (`find_dividends`) is not part of the sources; it is
  modelled from the specification where a claim needs it.

The Python boolean list `numbers` is modelled as a total function
`Nat → Bool`; all reads and writes performed by the code are proved to stay
below `num` (the list's length), via `Option`-valued checked variants of the
same code in which every index access is guarded.

`int(math.sqrt(num))` is modelled as the integer square root `isqrt`
(CPython's `math.sqrt` is correctly rounded, so truncating it agrees with the
integer square root throughout the range the program is used on).

The inner `while` loops are embedded with an explicit iteration bound
(`fuel`); `fuel = num` always suffices, and the fuel-irrelevance theorem
(claim C10) is exactly the statement that each loop terminates by reaching
its guard `y < num`.
-/

namespace CPrime

/-- A flag buffer: the Python list of booleans `numbers`, indexed by `Nat`. -/
def Buf : Type := Nat → Bool

/-- `numbers[i] = v`. -/
def setBuf (B : Buf) (i : Nat) (v : Bool) : Buf :=
  fun j => if j = i then v else B j

/-- The inner marking loop shared by `Learn1.prime_numbers` (lines 15-18:
`while y < num: numbers[y] = False; y += x`) and `prime_numbers_reference`
(test_CPrime.py lines 31-34).  `fuel` bounds the number of iterations; the
call sites pass `fuel = num`, which is always sufficient (see
`markMultiples_apply`).  The write `numbers[y] = False` is guarded by the
loop condition `y < num`, so it is always in bounds. -/
def markMultiples (num x : Nat) : Nat → Nat → Buf → Buf
  | 0, _, B => B
  | fuel + 1, y, B =>
    if y < num then markMultiples num x fuel (y + x) (setBuf B y false) else B

/-- The outer `for` loop shared by the two sieves:
`for x in xs: if numbers[x]: <mark multiples of x starting at f x>`.
`Learn1.prime_numbers` uses `f x = x * 2` over `range(2, k + 1)`;
`prime_numbers_reference` uses `f x = x * x` over `range(3, k + 1, 2)`. -/
def sieveFor (num : Nat) (f : Nat → Nat) : List Nat → Buf → Buf
  | [], B => B
  | x :: xs, B =>
    sieveFor num f xs (if B x then markMultiples num x num (f x) B else B)

/-- Helper for `isqrt`: the largest `j ≤ m` with `j * j ≤ n` (0 if none). -/
def isqrtAux (n : Nat) : Nat → Nat
  | 0 => 0
  | k + 1 => if (k + 1) * (k + 1) ≤ n then k + 1 else isqrtAux n k

/-- Integer square root, structurally recursive so that concrete runs of the
embedded code reduce in the kernel.  Models `int(math.sqrt(num))`; equals
`Nat.sqrt` (`isqrt_eq_sqrt`). -/
def isqrt (n : Nat) : Nat := isqrtAux n n

/-- Body of `Learn1.prime_numbers` (src/Learn1.py lines 8-22), parametrised by
the initial flag buffer (the source allocates `[True for x in range(num)]`;
the parametrisation is used to state that two runs agree, claim C7). -/
def sieve_run (num : Nat) (numbers : Buf) : List Nat :=
  let k := isqrt num
  let numbers2 := sieveFor num (fun x => x * 2) (List.range' 2 (k - 1)) numbers
  (List.range' 2 (num - 2)).filter (fun x => numbers2 x)

/-- `Learn1.prime_numbers` (src/Learn1.py lines 8-22):
`numbers = [True for x in range(num)]; k = int(math.sqrt(num));
for x in range(2, k + 1): if numbers[x]: y = x*2; while y < num: ...;
return [x for x in range(2, num, 1) if numbers[x]]`. -/
def prime_numbers (num : Nat) : List Nat := sieve_run num (fun _ => true)

/-- `prime_numbers_reference` (src/test_CPrime.py lines 11-43).  The
`assert(num >= 2)` is modelled as `none`; otherwise the function sieves odd
`x` in `range(3, k + 1, 2)` starting each marking pass at `y = x * x`, then
returns `result = [2]` extended with the surviving odd entries of
`range(3, num, 2)`.  `range(3, k + 1, 2)` has `(k - 1) / 2` elements and
`range(3, num, 2)` has `(num - 2) / 2` elements. -/
def prime_numbers_reference (num : Nat) : Option (List Nat) :=
  if num < 2 then none
  else
    let k := isqrt num
    let numbers :=
      sieveFor num (fun x => x * x) (List.range' 3 ((k - 1) / 2) 2) (fun _ => true)
    some (2 :: (List.range' 3 ((num - 2) / 2) 2).filter (fun x => numbers x))

/-- Checked variant of `sieveFor`: the read `numbers[x]` in the loop header is
guarded by a bound check against the buffer length `num`, returning `none`
(Python: `IndexError`) when out of range.  The writes inside `markMultiples`
are guarded by the loop condition `y < num` itself, so no further check is
needed there. -/
def sieveForChecked (num : Nat) (f : Nat → Nat) : List Nat → Buf → Option Buf
  | [], B => some B
  | x :: xs, B =>
    if x < num then
      sieveForChecked num f xs (if B x then markMultiples num x num (f x) B else B)
    else none

/-- `Learn1.prime_numbers` with every list read bound-checked: the loop reads
`numbers[x]` and the final comprehension reads `numbers[x]` for
`x in range(2, num)`.  Claim C9 states this never returns `none`. -/
def prime_numbers_checked (num : Nat) : Option (List Nat) :=
  let k := isqrt num
  match sieveForChecked num (fun x => x * 2) (List.range' 2 (k - 1)) (fun _ => true) with
  | none => none
  | some numbers =>
    if (List.range' 2 (num - 2)).all (fun x => decide (x < num)) then
      some ((List.range' 2 (num - 2)).filter (fun x => numbers x))
    else none

/-- `prime_numbers_reference` with every list read bound-checked. -/
def prime_numbers_reference_checked (num : Nat) : Option (List Nat) :=
  if num < 2 then none
  else
    let k := isqrt num
    match sieveForChecked num (fun x => x * x) (List.range' 3 ((k - 1) / 2) 2) (fun _ => true) with
    | none => none
    | some numbers =>
      if (List.range' 3 ((num - 2) / 2) 2).all (fun x => decide (x < num)) then
        some (2 :: (List.range' 3 ((num - 2) / 2) 2).filter (fun x => numbers x))
      else none

/-- Error taxonomy of the specification (section 7). -/
inductive CError : Type
  | invalidArgument
deriving DecidableEq

/-- Modelled from the spec: `find_dividends` lives in `CDividends.pyx`, which
is not among the sources; the specification says it fails with
InvalidArgument when `x < 2` and otherwise lazily yields, scanning candidate
divisors upward from `2`, every divisor `d` of `x` with `1 < d < x`. -/
def find_dividends (x : Nat) : Except CError (List Nat) :=
  if x < 2 then Except.error CError.invalidArgument
  else Except.ok ((List.range' 2 (x - 2)).filter (fun d => decide (x % d = 0)))

/-! ## Basic lemmas -/

lemma isqrtAux_eq_sqrt (n : Nat) : ∀ m, Nat.sqrt n ≤ m → isqrtAux n m = Nat.sqrt n := by
  intro m
  induction m with
  | zero => intro h; simp [isqrtAux]; omega
  | succ k ih =>
    intro h
    by_cases hk : (k + 1) * (k + 1) ≤ n
    · have h1 : k + 1 ≤ Nat.sqrt n := Nat.le_sqrt.mpr hk
      simp [isqrtAux, hk]; omega
    · have h2 : ¬(k + 1 ≤ Nat.sqrt n) := fun hle => hk (le_trans (Nat.mul_le_mul hle hle) (Nat.sqrt_le n))
      simp [isqrtAux, hk]
      exact ih (by omega)

lemma isqrt_eq_sqrt (n : Nat) : isqrt n = Nat.sqrt n :=
  isqrtAux_eq_sqrt n n (Nat.sqrt_le_self n)

lemma setBuf_same (B : Buf) (i : Nat) (v : Bool) : setBuf B i v i = v := by
  simp [setBuf]

lemma setBuf_other (B : Buf) (i j : Nat) (v : Bool) (h : j ≠ i) : setBuf B i v j = B j := by
  simp [setBuf, h]

/-- Splitting off one iteration of the arithmetic progression marked by the
inner loop: for `i ≠ y`, `i` is a later term of the progression starting at
`y` iff it is a term of the progression starting at `y + x`. -/
lemma dvd_shift {x i y : Nat} (hx : 0 < x) (hne : i ≠ y) :
    (y ≤ i ∧ x ∣ (i - y)) ↔ (y + x ≤ i ∧ x ∣ (i - (y + x))) := by
  constructor
  · rintro ⟨hyi, t, ht⟩
    have hti : i = y + x * t := by omega
    have ht1 : 1 ≤ t := by
      rcases Nat.eq_zero_or_pos t with h0 | h1
      · exfalso; rw [h0, Nat.mul_zero] at ht; omega
      · exact h1
    obtain ⟨s, rfl⟩ := Nat.exists_eq_add_of_le ht1
    have hms : x * (1 + s) = x * s + x := by ring
    refine ⟨by omega, s, by omega⟩
  · rintro ⟨hyi, t, ht⟩
    have hti : i = (y + x) + x * t := by omega
    have hms : x * (t + 1) = x * t + x := by ring
    exact ⟨by omega, t + 1, by omega⟩

/-- Pointwise characterisation of the inner marking loop, given sufficient
fuel: index `i` ends up `False` exactly when it lies in the arithmetic
progression `y, y + x, y + 2x, …` below `num`; all other indices keep their
previous flag. -/
lemma markMultiples_apply {num x : Nat} (hx : 0 < x) :
    ∀ fuel y B, num - y ≤ fuel → ∀ i,
      markMultiples num x fuel y B i =
        if y ≤ i ∧ x ∣ (i - y) ∧ i < num then false else B i := by
  intro fuel
  induction fuel with
  | zero =>
    intro y B hfuel i
    simp only [markMultiples]
    rw [if_neg]; omega
  | succ f ih =>
    intro y B hfuel i
    simp only [markMultiples]
    by_cases hy : y < num
    · rw [if_pos hy, ih (y + x) (setBuf B y false) (by omega) i]
      by_cases hiy : i = y
      · subst hiy
        rw [if_neg (by rintro ⟨h1, -, -⟩; omega), setBuf_same,
          if_pos ⟨le_refl i, ⟨0, by omega⟩, hy⟩]
      · rw [setBuf_other B y i false hiy]
        by_cases hc : y ≤ i ∧ x ∣ (i - y)
        · have := (dvd_shift hx hiy).mp hc
          by_cases hin : i < num
          · rw [if_pos ⟨this.1, this.2, hin⟩, if_pos ⟨hc.1, hc.2, hin⟩]
          · rw [if_neg (by tauto), if_neg (by tauto)]
        · rw [if_neg, if_neg]
          · exact fun h => hc ⟨h.1, h.2.1⟩
          · exact fun h => hc ((dvd_shift hx hiy).mpr ⟨h.1, h.2.1⟩)
    · rw [if_neg hy, if_neg]; omega

/-- The marking loop never raises a flag back to `True`. -/
lemma markMultiples_true_of {num x : Nat} :
    ∀ fuel y B i, markMultiples num x fuel y B i = true → B i = true := by
  intro fuel
  induction fuel with
  | zero => intro y B i h; simpa [markMultiples] using h
  | succ f ih =>
    intro y B i h
    simp only [markMultiples] at h
    by_cases hy : y < num
    · rw [if_pos hy] at h
      have := ih (y + x) (setBuf B y false) i h
      by_cases hiy : i = y
      · subst hiy; rw [setBuf_same] at this; exact absurd this (by simp)
      · rwa [setBuf_other B y i false hiy] at this
    · rwa [if_neg hy] at h

/-! ## Lemmas about the outer sieve loop -/

lemma sieveFor_append (num : Nat) (f : Nat → Nat) (l₁ l₂ : List Nat) (B : Buf) :
    sieveFor num f (l₁ ++ l₂) B = sieveFor num f l₂ (sieveFor num f l₁ B) := by
  induction l₁ generalizing B with
  | nil => rfl
  | cons x xs ih => simp only [List.cons_append, sieveFor, List.append_eq, ih]

/-- The outer loop never raises a flag back to `True`. -/
lemma sieveFor_true_of {num : Nat} {f : Nat → Nat} :
    ∀ xs B i, sieveFor num f xs B i = true → B i = true := by
  intro xs
  induction xs with
  | nil => intro B i h; exact h
  | cons x xs ih =>
    intro B i h
    have h2 := ih _ i h
    by_cases hBx : B x = true
    · rw [if_pos hBx] at h2
      exact markMultiples_true_of num (f x) B i h2
    · rwa [if_neg hBx] at h2

/-- A prime index is never marked: every index the loop marks is a product
`x * a` with `x ≥ 2` a loop candidate and `a ≥ 2`, hence composite.  The
hypothesis on `f` records that each marking pass for `x` starts at a multiple
`x * a` of `x` with `a ≥ 2` (Learn1: `a = 2`; the reference: `a = x`). -/
lemma sieveFor_prime_true {num : Nat} {f : Nat → Nat} :
    ∀ xs B p, (∀ x ∈ xs, 2 ≤ x ∧ ∃ a, 2 ≤ a ∧ f x = x * a) →
      Nat.Prime p → B p = true → sieveFor num f xs B p = true := by
  intro xs
  induction xs with
  | nil => intro B p _ _ hB; exact hB
  | cons x xs ih =>
    intro B p hall hp hB
    have hx := hall x (List.mem_cons_self x xs)
    obtain ⟨hx2, a, ha2, hfa⟩ := hx
    refine ih _ p (fun z hz => hall z (List.mem_cons_of_mem x hz)) hp ?_
    by_cases hBx : B x = true
    · rw [if_pos hBx, markMultiples_apply (by omega) num (f x) B (by omega) p]
      rw [if_neg, hB]
      rintro ⟨hle, ⟨t, ht⟩, hlt⟩
      have hms : x * a + x * t = x * (a + t) := by ring
      have hpt : p = x * (a + t) := by omega
      have hdvd : x ∣ p := ⟨a + t, hpt⟩
      rcases (Nat.Prime.eq_one_or_self_of_dvd hp x hdvd) with h1 | hxp
      · omega
      · have : x * 1 = x * (a + t) := by omega
        have := Nat.eq_of_mul_eq_mul_left (by omega) this
        omega
    · rw [if_neg hBx]; exact hB

/-- If some prime `p` among the loop candidates divides `m`, and `m` lies in
the progression marked for `p`, then `m` ends the loop marked `False`. -/
lemma sieveFor_marked {num : Nat} {f : Nat → Nat} {xs : List Nat} {B : Buf} {p m : Nat}
    (hall : ∀ x ∈ xs, 2 ≤ x ∧ ∃ a, 2 ≤ a ∧ f x = x * a)
    (hmem : p ∈ xs) (hp : Nat.Prime p) (hB : B p = true)
    (h1 : f p ≤ m) (h2 : p ∣ (m - f p)) (h3 : m < num) :
    sieveFor num f xs B m = false := by
  obtain ⟨l₁, l₂, rfl⟩ := List.append_of_mem hmem
  rw [sieveFor_append]
  set B₁ := sieveFor num f l₁ B with hB₁
  have hB₁p : B₁ p = true := by
    refine sieveFor_prime_true l₁ B p (fun z hz => hall z ?_) hp hB
    simp [hz]
  have hp2 : 2 ≤ p := hp.two_le
  simp only [sieveFor, if_pos hB₁p]
  set B₂ := markMultiples num p num (f p) B₁ with hB₂
  have hB₂m : B₂ m = false := by
    rw [hB₂, markMultiples_apply (by omega) num (f p) B₁ (by omega) m,
      if_pos ⟨h1, h2, h3⟩]
  by_contra hne
  have : sieveFor num f l₂ B₂ m = true := by
    revert hne
    cases sieveFor num f l₂ B₂ m <;> simp
  have := sieveFor_true_of l₂ B₂ m this
  rw [hB₂m] at this
  exact Bool.false_ne_true this

/-! ## Final state of the flag buffer -/

/-- After `Learn1.prime_numbers`'s sieve loop, an index `2 ≤ m < num` is still
flagged `True` exactly when `m` is prime. -/
lemma learn1_buffer {num : Nat} (m : Nat) (h2 : 2 ≤ m) (hm : m < num) :
    sieveFor num (fun x => x * 2) (List.range' 2 (isqrt num - 1)) (fun _ => true) m = true
      ↔ Nat.Prime m := by
  have hall : ∀ x ∈ List.range' 2 (isqrt num - 1),
      2 ≤ x ∧ ∃ a, 2 ≤ a ∧ x * 2 = x * a := by
    intro x hx
    rw [List.mem_range'_1] at hx
    exact ⟨hx.1, 2, le_refl 2, rfl⟩
  constructor
  · intro htrue
    by_contra hnp
    set p := m.minFac with hpdef
    have hp : Nat.Prime p := Nat.minFac_prime (by omega)
    have hpd : p ∣ m := Nat.minFac_dvd m
    have hppm : p * p ≤ m := by
      have := Nat.minFac_sq_le_self (by omega : 0 < m) hnp
      rwa [Nat.pow_two] at this
    have hq : p * (m / p) = m := Nat.mul_div_cancel' hpd
    set q := m / p with hqdef
    have hp0 : 0 < p := hp.pos
    have hpq : p ≤ q := Nat.le_of_mul_le_mul_left (by omega) hp0
    have hq2 : 2 ≤ q := le_trans hp.two_le hpq
    have hk : p ≤ isqrt num := by
      rw [isqrt_eq_sqrt]
      exact Nat.le_sqrt.mpr (by omega)
    have hmem : p ∈ List.range' 2 (isqrt num - 1) := by
      rw [List.mem_range'_1]
      exact ⟨hp.two_le, by omega⟩
    have hmul2 : p * 2 ≤ p * q := Nat.mul_le_mul_left p hq2
    have hsub : p * (q - 2) = p * q - p * 2 := Nat.mul_sub_left_distrib p q 2
    have hmarked : sieveFor num (fun x => x * 2) (List.range' 2 (isqrt num - 1))
        (fun _ => true) m = false := by
      refine sieveFor_marked hall hmem hp rfl ?_ ?_ hm
      · show p * 2 ≤ m
        omega
      · show p ∣ m - p * 2
        exact ⟨q - 2, by omega⟩
    rw [htrue] at hmarked
    exact Bool.noConfusion hmarked
  · intro hp
    exact sieveFor_prime_true _ _ m hall hp rfl

/-- After `prime_numbers_reference`'s sieve loop, an odd index `3 ≤ m < num`
is still flagged `True` exactly when `m` is prime. -/
lemma ref_buffer {num : Nat} (m : Nat) (hodd : m % 2 = 1) (h3 : 3 ≤ m) (hm : m < num) :
    sieveFor num (fun x => x * x) (List.range' 3 ((isqrt num - 1) / 2) 2) (fun _ => true) m = true
      ↔ Nat.Prime m := by
  have hall : ∀ x ∈ List.range' 3 ((isqrt num - 1) / 2) 2,
      2 ≤ x ∧ ∃ a, 2 ≤ a ∧ x * x = x * a := by
    intro x hx
    rw [List.mem_range'] at hx
    obtain ⟨i, _, rfl⟩ := hx
    exact ⟨by omega, 3 + 2 * i, by omega, rfl⟩
  constructor
  · intro htrue
    by_contra hnp
    set p := m.minFac with hpdef
    have hp : Nat.Prime p := Nat.minFac_prime (by omega)
    have hpd : p ∣ m := Nat.minFac_dvd m
    have hppm : p * p ≤ m := by
      have := Nat.minFac_sq_le_self (by omega : 0 < m) hnp
      rwa [Nat.pow_two] at this
    have hq : p * (m / p) = m := Nat.mul_div_cancel' hpd
    set q := m / p with hqdef
    have hp0 : 0 < p := hp.pos
    have hpq : p ≤ q := Nat.le_of_mul_le_mul_left (by omega) hp0
    have hpne2 : p ≠ 2 := by
      intro h2'
      rw [h2'] at hpd
      rw [Nat.dvd_iff_mod_eq_zero] at hpd
      omega
    have hpodd : p % 2 = 1 := (Nat.Prime.eq_two_or_odd hp).resolve_left hpne2
    have hp3 : 3 ≤ p := by
      have := hp.two_le
      omega
    have hk : p ≤ isqrt num := by
      rw [isqrt_eq_sqrt]
      exact Nat.le_sqrt.mpr (by omega)
    have hmem : p ∈ List.range' 3 ((isqrt num - 1) / 2) 2 := by
      rw [List.mem_range']
      exact ⟨(p - 3) / 2, by omega, by omega⟩
    have hmulp : p * p ≤ p * q := Nat.mul_le_mul_left p hpq
    have hsub : p * (q - p) = p * q - p * p := Nat.mul_sub_left_distrib p q p
    have hmarked : sieveFor num (fun x => x * x) (List.range' 3 ((isqrt num - 1) / 2) 2)
        (fun _ => true) m = false := by
      refine sieveFor_marked hall hmem hp rfl ?_ ?_ hm
      · show p * p ≤ m
        omega
      · show p ∣ m - p * p
        exact ⟨q - p, by omega⟩
    rw [htrue] at hmarked
    exact Bool.noConfusion hmarked
  · intro hp
    exact sieveFor_prime_true _ _ m hall hp rfl

/-! ## Bounds of the ranges the loops index with -/

/-- Every candidate of Learn1's outer loop, `range(2, k + 1)` with
`k = isqrt num`, is a valid index of the length-`num` buffer. -/
lemma mem_sqrtRange_lt {num x : Nat} (hx : x ∈ List.range' 2 (isqrt num - 1)) :
    x < num := by
  rw [List.mem_range'_1] at hx
  have hsq : isqrt num * isqrt num ≤ num := by
    rw [isqrt_eq_sqrt]; exact Nat.sqrt_le num
  have hxk : x ≤ isqrt num := by omega
  have hk2 : 2 ≤ isqrt num := by omega
  have h2k : isqrt num * 2 ≤ isqrt num * isqrt num := Nat.mul_le_mul_left _ hk2
  omega

/-- Every candidate of the reference's outer loop, `range(3, k + 1, 2)`, is a
valid index of the length-`num` buffer (given the asserted `num ≥ 2`). -/
lemma mem_oddRange_lt {num x : Nat} (h2 : 2 ≤ num)
    (hx : x ∈ List.range' 3 ((isqrt num - 1) / 2) 2) : x < num := by
  rw [List.mem_range'] at hx
  obtain ⟨i, hi, rfl⟩ := hx
  have hk : isqrt num < num := by
    rw [isqrt_eq_sqrt]; exact Nat.sqrt_lt_self (by omega)
  omega

/-- The entries of the reference's final comprehension `range(3, num, 2)`,
characterised arithmetically. -/
lemma mem_oddCollect {num a : Nat} :
    a ∈ List.range' 3 ((num - 2) / 2) 2 ↔ (a % 2 = 1 ∧ 3 ≤ a ∧ a < num) := by
  rw [List.mem_range']
  constructor
  · rintro ⟨i, hi, rfl⟩
    omega
  · rintro ⟨hodd, h3, hlt⟩
    exact ⟨(a - 3) / 2, by omega, by omega⟩

/-- Two strictly sorted lists with the same members are equal. -/
lemma sorted_lt_ext : ∀ {l₁ l₂ : List Nat}, l₁.Pairwise (· < ·) → l₂.Pairwise (· < ·) →
    (∀ a, a ∈ l₁ ↔ a ∈ l₂) → l₁ = l₂ := by
  intro l₁
  induction l₁ with
  | nil =>
    intro l₂ _ _ hmem
    cases l₂ with
    | nil => rfl
    | cons y ys => exact absurd ((hmem y).mpr (List.mem_cons_self y ys)) (List.not_mem_nil y)
  | cons x xs ih =>
    intro l₂ h₁ h₂ hmem
    cases l₂ with
    | nil => exact absurd ((hmem x).mp (List.mem_cons_self x xs)) (List.not_mem_nil x)
    | cons y ys =>
      rw [List.pairwise_cons] at h₁ h₂
      have hxy : x = y := by
        rcases List.mem_cons.mp ((hmem x).mp (List.mem_cons_self x xs)) with h | hx2
        · exact h
        · rcases List.mem_cons.mp ((hmem y).mpr (List.mem_cons_self y ys)) with h | hy1
          · exact h.symm
          · have := h₁.1 y hy1
            have := h₂.1 x hx2
            omega
      subst hxy
      have htail : ∀ a, a ∈ xs ↔ a ∈ ys := by
        intro a
        constructor
        · intro ha
          have hne : a ≠ x := fun he => by
            have := h₁.1 a ha; omega
          rcases List.mem_cons.mp ((hmem a).mp (List.mem_cons_of_mem x ha)) with h | h
          · exact absurd h hne
          · exact h
        · intro ha
          have hne : a ≠ x := fun he => by
            have := h₂.1 a ha; omega
          rcases List.mem_cons.mp ((hmem a).mpr (List.mem_cons_of_mem x ha)) with h | h
          · exact absurd h hne
          · exact h
      rw [ih h₁.2 h₂.2 htail]

/-! ## The checked runs coincide with the unchecked runs -/

lemma sieveForChecked_eq_some {num : Nat} {f : Nat → Nat} :
    ∀ xs B, (∀ x ∈ xs, x < num) →
      sieveForChecked num f xs B = some (sieveFor num f xs B) := by
  intro xs
  induction xs with
  | nil => intro B _; rfl
  | cons x xs ih =>
    intro B hb
    rw [sieveForChecked, sieveFor, if_pos (hb x (List.mem_cons_self x xs))]
    exact ih _ (fun z hz => hb z (List.mem_cons_of_mem x hz))

/-- Learn1's `prime_numbers` with bound-checked reads never fails, and agrees
with the unchecked run, for every input. -/
lemma checked_eq_some (num : Nat) :
    prime_numbers_checked num = some (prime_numbers num) := by
  have hb : ∀ x ∈ List.range' 2 (isqrt num - 1), x < num := fun x hx => mem_sqrtRange_lt hx
  have hall : (List.range' 2 (num - 2)).all (fun x => decide (x < num)) = true := by
    rw [List.all_eq_true]
    intro x hx
    rw [List.mem_range'_1] at hx
    exact decide_eq_true (by omega)
  simp only [prime_numbers_checked, sieveForChecked_eq_some _ _ hb, hall, if_true]
  rfl

/-- The reference sieve with bound-checked reads never fails for `num ≥ 2`,
and agrees with the unchecked run. -/
lemma ref_checked_eq (num : Nat) (h2 : 2 ≤ num) :
    prime_numbers_reference_checked num = prime_numbers_reference num := by
  have hb : ∀ x ∈ List.range' 3 ((isqrt num - 1) / 2) 2, x < num :=
    fun x hx => mem_oddRange_lt h2 hx
  have hall : (List.range' 3 ((num - 2) / 2) 2).all (fun x => decide (x < num)) = true := by
    rw [List.all_eq_true]
    intro x hx
    rw [mem_oddCollect] at hx
    exact decide_eq_true (by omega)
  simp only [prime_numbers_reference_checked, prime_numbers_reference, if_neg (by omega : ¬num < 2),
    sieveForChecked_eq_some _ _ hb, hall, if_true]

/-! ## The output lists -/

/-- `Learn1.prime_numbers num` is the ascending list of primes in `[2, num)`,
for every input. -/
lemma prime_numbers_eq_filter (num : Nat) :
    prime_numbers num = (List.range' 2 (num - 2)).filter (fun m => decide (Nat.Prime m)) := by
  simp only [prime_numbers, sieve_run]
  refine List.filter_congr ?_
  intro x hx
  rw [List.mem_range'_1] at hx
  have hxn : x < num := by omega
  have hchar := learn1_buffer x hx.1 hxn
  cases hB : sieveFor num (fun x => x * 2) (List.range' 2 (isqrt num - 1)) (fun _ => true) x with
  | false =>
    have hnp : ¬Nat.Prime x := fun hp => by
      rw [hchar.mpr hp] at hB
      exact Bool.noConfusion hB
    exact (decide_eq_false hnp).symm
  | true => exact (decide_eq_true (hchar.mp hB)).symm

/-- For `num ≥ 3`, the reference sieve also returns the ascending list of
primes in `[2, num)`. -/
lemma reference_eq_filter (num : Nat) (h3 : 3 ≤ num) :
    prime_numbers_reference num
      = some ((List.range' 2 (num - 2)).filter (fun m => decide (Nat.Prime m))) := by
  simp only [prime_numbers_reference, if_neg (by omega : ¬num < 2)]
  congr 1
  have hsorted₁ : (2 :: (List.range' 3 ((num - 2) / 2) 2).filter
      (fun x => sieveFor num (fun x => x * x) (List.range' 3 ((isqrt num - 1) / 2) 2)
        (fun _ => true) x)).Pairwise (· < ·) := by
    rw [List.pairwise_cons]
    constructor
    · intro b hb
      have := List.mem_of_mem_filter hb
      rw [mem_oddCollect] at this
      omega
    · exact List.Pairwise.sublist (List.filter_sublist _) (List.pairwise_lt_range' 3 _ 2 (by omega))
  have hsorted₂ : ((List.range' 2 (num - 2)).filter
      (fun m => decide (Nat.Prime m))).Pairwise (· < ·) :=
    List.Pairwise.sublist (List.filter_sublist _) (List.pairwise_lt_range' 2 _)
  refine sorted_lt_ext hsorted₁ hsorted₂ ?_
  intro a
  rw [List.mem_cons, List.mem_filter, List.mem_filter, List.mem_range'_1, mem_oddCollect]
  simp only [decide_eq_true_eq]
  constructor
  · rintro (rfl | ⟨⟨hodd, h3a, hlt⟩, hflag⟩)
    · exact ⟨⟨le_refl 2, by omega⟩, Nat.prime_two⟩
    · have := (ref_buffer a hodd h3a hlt).mp hflag
      exact ⟨⟨by omega, by omega⟩, this⟩
  · rintro ⟨⟨h2a, hlt⟩, hp⟩
    by_cases ha2 : a = 2
    · exact Or.inl ha2
    · have hodd : a % 2 = 1 := (Nat.Prime.eq_two_or_odd hp).resolve_left ha2
      have h3a : 3 ≤ a := by omega
      exact Or.inr ⟨⟨hodd, h3a, by omega⟩, (ref_buffer a hodd h3a (by omega)).mpr hp⟩

/-! ## Two runs from equal buffers agree (for claim C7) -/

lemma markMultiples_congr {num x : Nat} :
    ∀ fuel y B₁ B₂, (∀ i, i < num → B₁ i = B₂ i) → ∀ i, i < num →
      markMultiples num x fuel y B₁ i = markMultiples num x fuel y B₂ i := by
  intro fuel
  induction fuel with
  | zero => intro y B₁ B₂ h i hi; exact h i hi
  | succ f ih =>
    intro y B₁ B₂ h i hi
    simp only [markMultiples]
    by_cases hy : y < num
    · rw [if_pos hy, if_pos hy]
      refine ih (y + x) _ _ ?_ i hi
      intro j hj
      by_cases hjy : j = y
      · subst hjy; rw [setBuf_same, setBuf_same]
      · rw [setBuf_other _ _ _ _ hjy, setBuf_other _ _ _ _ hjy]
        exact h j hj
    · rw [if_neg hy, if_neg hy]
      exact h i hi

lemma sieveFor_congr {num : Nat} {f : Nat → Nat} :
    ∀ xs B₁ B₂, (∀ x ∈ xs, x < num) → (∀ i, i < num → B₁ i = B₂ i) → ∀ i, i < num →
      sieveFor num f xs B₁ i = sieveFor num f xs B₂ i := by
  intro xs
  induction xs with
  | nil => intro B₁ B₂ _ h i hi; exact h i hi
  | cons x xs ih =>
    intro B₁ B₂ hb h i hi
    simp only [sieveFor]
    refine ih _ _ (fun z hz => hb z (List.mem_cons_of_mem x hz)) ?_ i hi
    intro j hj
    have hBx : B₁ x = B₂ x := h x (hb x (List.mem_cons_self x xs))
    rw [hBx]
    by_cases hc : B₂ x = true
    · rw [if_pos hc, if_pos hc]
      exact markMultiples_congr num (f x) B₁ B₂ h j hj
    · rw [if_neg hc, if_neg hc]
      exact h j hj

/-! ## Claim theorems -/

/-- C1.  For every `limit ≥ 2`, `prime_numbers limit` is ascending, has no
duplicates, and contains exactly the primes of the half-open interval
`[2, limit)`. -/
theorem prime_numbers_exactly_primes_below (limit : Nat) (h : 2 ≤ limit) :
    (prime_numbers limit).Sorted (· < ·) ∧ (prime_numbers limit).Nodup ∧
    (∀ p, p ∈ prime_numbers limit ↔ (Nat.Prime p ∧ 2 ≤ p ∧ p < limit)) := by
  rw [prime_numbers_eq_filter]
  have hsorted : ((List.range' 2 (limit - 2)).filter
      (fun m => decide (Nat.Prime m))).Pairwise (· < ·) :=
    List.Pairwise.sublist (List.filter_sublist _) (List.pairwise_lt_range' 2 _)
  refine ⟨hsorted, List.Pairwise.imp Nat.ne_of_lt hsorted, ?_⟩
  intro p
  rw [List.mem_filter, List.mem_range'_1]
  simp only [decide_eq_true_eq]
  constructor
  · rintro ⟨⟨h2p, hlt⟩, hp⟩
    exact ⟨hp, h2p, by omega⟩
  · rintro ⟨hp, h2p, hlt⟩
    exact ⟨⟨h2p, by omega⟩, hp⟩

/-- Witness for C1 at `limit = 30`. -/
theorem prime_numbers_exactly_primes_below_witness :
    (prime_numbers 30).Sorted (· < ·) ∧ (prime_numbers 30).Nodup ∧
    (∀ p, p ∈ prime_numbers 30 ↔ (Nat.Prime p ∧ 2 ≤ p ∧ p < 30)) :=
  prime_numbers_exactly_primes_below 30 (by decide)

/-- C2.  The claimed equivalence fails at `N = 2`: `prime_numbers 2 = []` but
the reference sieve unconditionally seeds its result with `[2]`, returning
`some [2]`.  For every `N ≥ 3` the two agree exactly. -/
theorem reference_equivalence_fails_at_two :
    prime_numbers 2 = [] ∧ prime_numbers_reference 2 = some [2] ∧
    (∀ N, 3 ≤ N → prime_numbers_reference N = some (prime_numbers N)) := by
  refine ⟨by decide, by decide, fun N h3 => ?_⟩
  rw [reference_eq_filter N h3, prime_numbers_eq_filter]

/-- Witness for C2's quantified part at `N = 5`. -/
theorem reference_equivalence_fails_at_two_witness :
    prime_numbers_reference 5 = some (prime_numbers 5) :=
  reference_equivalence_fails_at_two.2.2 5 (by decide)

/-- C3, counterexample to the claim as stated: `3` is prime, yet
`prime_numbers 3` is `[2]` — the bound is exclusive, so `limit` itself never
appears in the output even when it is prime. -/
theorem prime_numbers_excludes_prime_limit :
    Nat.Prime 3 ∧ prime_numbers 3 = [2] ∧ 3 ∉ prime_numbers 3 :=
  ⟨Nat.prime_three, by decide, by decide⟩

/-- C3, amended.  For every `limit ≥ 2`, the sieve's output is exactly the
ascending list of primes strictly below `limit` (the bound is exclusive). -/
theorem prime_numbers_ascending_primes_strictly_below (limit : Nat) (h : 2 ≤ limit) :
    prime_numbers limit = (List.range' 2 (limit - 2)).filter (fun m => decide (Nat.Prime m)) :=
  prime_numbers_eq_filter limit

/-- Witness for the amended C3 at `limit = 30`. -/
theorem prime_numbers_ascending_primes_strictly_below_witness :
    prime_numbers 30 = (List.range' 2 (30 - 2)).filter (fun m => decide (Nat.Prime m)) :=
  prime_numbers_ascending_primes_strictly_below 30 (by decide)

/-- C4, counterexample to the claim as stated: `prime_numbers 1` does not
fail — it terminates normally (even with every buffer access bound-checked)
and returns the empty sequence. -/
theorem prime_numbers_one_succeeds :
    prime_numbers 1 = [] ∧ prime_numbers_checked 1 = some [] := by decide

/-- C4, amended.  `Learn1.prime_numbers` has no `limit < 2` check: for
`limit < 2` it succeeds and returns the empty sequence (also under
bound-checked indexing), and for `limit ≥ 2` it succeeds as well; only the
reference sieve rejects `limit < 2`, via its `assert(num >= 2)`. -/
theorem prime_numbers_no_invalid_argument_check :
    (∀ limit, limit < 2 → prime_numbers limit = [] ∧ prime_numbers_checked limit = some []) ∧
    (∀ limit, 2 ≤ limit → ∃ l, prime_numbers_checked limit = some l) ∧
    (∀ limit, limit < 2 → prime_numbers_reference limit = none) := by
  refine ⟨?_, ?_, ?_⟩
  · intro limit hl
    have h01 : limit = 0 ∨ limit = 1 := by omega
    rcases h01 with rfl | rfl
    · exact ⟨by decide, by decide⟩
    · exact ⟨by decide, by decide⟩
  · intro limit _
    exact ⟨prime_numbers limit, checked_eq_some limit⟩
  · intro limit hl
    simp only [prime_numbers_reference, if_pos hl]

/-- Witness for the amended C4 at `limit = 0`. -/
theorem prime_numbers_no_invalid_argument_check_witness :
    prime_numbers 0 = [] ∧ prime_numbers_checked 0 = some [] :=
  prime_numbers_no_invalid_argument_check.1 0 (by decide)

/-- C5.  The boundary and sample outputs of `prime_numbers`. -/
theorem prime_numbers_boundary_values :
    prime_numbers 2 = [] ∧ prime_numbers 3 = [2] ∧ prime_numbers 4 = [2, 3] ∧
    prime_numbers 30 = [2, 3, 5, 7, 11, 13, 17, 19, 23, 29] :=
  ⟨by decide, by decide, by decide, by decide⟩

/-- C6.  The dividend finder (modelled from the spec): it rejects `x < 2`
with InvalidArgument; for `x ≥ 2` it yields, in ascending order, exactly the
divisors `d` of `x` with `1 < d < x`, and the output is empty iff `x` is
prime; in particular `find_dividends 91 = [7, 13]` and
`find_dividends 97 = []`. -/
theorem find_dividends_spec :
    (∀ x, x < 2 → find_dividends x = Except.error CError.invalidArgument) ∧
    (∀ x, 2 ≤ x → ∃ l, find_dividends x = Except.ok l ∧ l.Sorted (· < ·) ∧
      (∀ d, d ∈ l ↔ (1 < d ∧ d < x ∧ d ∣ x)) ∧ (l = [] ↔ Nat.Prime x)) ∧
    find_dividends 91 = Except.ok [7, 13] ∧ find_dividends 97 = Except.ok [] := by
  refine ⟨?_, ?_, by rfl, by rfl⟩
  · intro x hx
    simp only [find_dividends, if_pos hx]
  · intro x hx
    refine ⟨(List.range' 2 (x - 2)).filter (fun d => decide (x % d = 0)), ?_, ?_, ?_, ?_⟩
    · simp only [find_dividends, if_neg (by omega : ¬x < 2)]
    · exact List.Pairwise.sublist (List.filter_sublist _) (List.pairwise_lt_range' 2 _)
    · intro d
      rw [List.mem_filter, List.mem_range'_1]
      simp only [decide_eq_true_eq]
      constructor
      · rintro ⟨⟨h2d, hlt⟩, hmod⟩
        exact ⟨by omega, by omega, Nat.dvd_iff_mod_eq_zero.mpr hmod⟩
      · rintro ⟨h1d, hlt, hdvd⟩
        exact ⟨⟨by omega, by omega⟩, Nat.dvd_iff_mod_eq_zero.mp hdvd⟩
    · constructor
      · intro hnil
        rw [Nat.prime_def_lt']
        refine ⟨hx, ?_⟩
        intro m h2m hmx hdvd
        have hmem : m ∈ (List.range' 2 (x - 2)).filter (fun d => decide (x % d = 0)) := by
          rw [List.mem_filter, List.mem_range'_1]
          exact ⟨⟨h2m, by omega⟩, decide_eq_true (Nat.dvd_iff_mod_eq_zero.mp hdvd)⟩
        rw [hnil] at hmem
        exact absurd hmem (List.not_mem_nil m)
      · intro hp
        rw [List.eq_nil_iff_forall_not_mem]
        intro d hd
        rw [List.mem_filter, List.mem_range'_1] at hd
        obtain ⟨⟨h2d, hlt⟩, hmod⟩ := hd
        exact (Nat.prime_def_lt'.mp hp).2 d h2d (by omega)
          (Nat.dvd_iff_mod_eq_zero.mpr (decide_eq_true_eq.mp hmod))

/-- Witness for C6 at `x = 0`. -/
theorem find_dividends_spec_witness :
    find_dividends 0 = Except.error CError.invalidArgument :=
  find_dividends_spec.1 0 (by decide)

/-- C7.  `prime_numbers` is deterministic: any two runs whose freshly
allocated flag buffers are all-`True` below `N` (which is exactly what
`[True for x in range(num)]` produces on every call) return identical
sequences, and that common value is `prime_numbers N`. -/
theorem prime_numbers_deterministic (N : Nat) (B₁ B₂ : Buf)
    (h₁ : ∀ i, i < N → B₁ i = true) (h₂ : ∀ i, i < N → B₂ i = true) :
    sieve_run N B₁ = sieve_run N B₂ ∧ sieve_run N B₁ = prime_numbers N := by
  have key : ∀ C₁ C₂ : Buf, (∀ i, i < N → C₁ i = true) → (∀ i, i < N → C₂ i = true) →
      sieve_run N C₁ = sieve_run N C₂ := by
    intro C₁ C₂ g₁ g₂
    simp only [sieve_run]
    refine List.filter_congr ?_
    intro x hx
    rw [List.mem_range'_1] at hx
    have hxn : x < N := by omega
    exact sieveFor_congr (List.range' 2 (isqrt N - 1)) C₁ C₂
      (fun z hz => mem_sqrtRange_lt hz)
      (fun i hi => (g₁ i hi).trans (g₂ i hi).symm) x hxn
  exact ⟨key B₁ B₂ h₁ h₂, key B₁ (fun _ => true) h₁ (fun _ _ => rfl)⟩

/-- Witness for C7 at `N = 10`, with two buffers that differ above `N`. -/
theorem prime_numbers_deterministic_witness :
    sieve_run 10 (fun _ => true) = sieve_run 10 (fun i => decide (i < 10)) ∧
    sieve_run 10 (fun _ => true) = prime_numbers 10 :=
  prime_numbers_deterministic 10 (fun _ => true) (fun i => decide (i < 10))
    (fun _ _ => rfl) (fun i hi => decide_eq_true hi)

/-- C8.  Enlarging the bound only appends primes: for `2 ≤ M ≤ N`,
`prime_numbers M` is a prefix of `prime_numbers N`. -/
theorem prime_numbers_monotone_in_limit (M N : Nat) (h2 : 2 ≤ M) (hMN : M ≤ N) :
    prime_numbers M <+: prime_numbers N := by
  rw [prime_numbers_eq_filter, prime_numbers_eq_filter]
  refine ⟨(List.range' M (N - M)).filter (fun m => decide (Nat.Prime m)), ?_⟩
  rw [← List.filter_append]
  have happ := List.range'_append_1 2 (M - 2) (N - M)
  rw [show 2 + (M - 2) = M from by omega] at happ
  rw [happ, show N - M + (M - 2) = N - 2 from by omega]

/-- Witness for C8 at `M = 10`, `N = 30`. -/
theorem prime_numbers_monotone_in_limit_witness :
    prime_numbers 10 <+: prime_numbers 30 :=
  prime_numbers_monotone_in_limit 10 30 (by decide) (by decide)

/-- C9.  All buffer indexing stays in bounds: the bound-checked runs of both
sieves never fail, and agree with the unchecked runs (for the reference, on
its asserted domain `num ≥ 2`). -/
theorem sieve_indexing_in_bounds :
    (∀ num, prime_numbers_checked num = some (prime_numbers num)) ∧
    (∀ num, 2 ≤ num → prime_numbers_reference_checked num = prime_numbers_reference num ∧
      ∃ l, prime_numbers_reference num = some l) := by
  refine ⟨checked_eq_some, fun num h2 => ⟨ref_checked_eq num h2, ?_⟩⟩
  simp only [prime_numbers_reference, if_neg (by omega : ¬num < 2)]
  exact ⟨_, rfl⟩

/-- Witness for C9 at `num = 10`. -/
theorem sieve_indexing_in_bounds_witness :
    prime_numbers_reference_checked 10 = prime_numbers_reference 10 ∧
    ∃ l, prime_numbers_reference 10 = some l :=
  sieve_indexing_in_bounds.2 10 (by decide)

/-- C10.  The inner marking loop terminates: since `y` strictly increases by
`x ≥ 1` each iteration and the loop exits once `y ≥ num`, any iteration
bound of at least `num - y` yields the same result — the loop always stops
by reaching its guard, never by exhausting fuel. -/
theorem markMultiples_fuel_irrelevant (num x y f₁ f₂ : Nat) (B : Buf) (hx : 0 < x)
    (h₁ : num - y ≤ f₁) (h₂ : num - y ≤ f₂) :
    markMultiples num x f₁ y B = markMultiples num x f₂ y B := by
  funext i
  rw [markMultiples_apply hx f₁ y B h₁ i, markMultiples_apply hx f₂ y B h₂ i]

/-- Witness for C10: two different sufficient fuels give the same run. -/
theorem markMultiples_fuel_irrelevant_witness :
    markMultiples 10 2 10 4 (fun _ => true) = markMultiples 10 2 25 4 (fun _ => true) :=
  markMultiples_fuel_irrelevant 10 2 4 10 25 (fun _ => true) (by decide) (by decide) (by decide)

end CPrime
